import Mathlib

/-!
# Verification of the heed typed key-value store wrapper

A shallow embedding of the heed repository (`src/heed`, `src/heed-traits`,
`src/heed-types`): the environment registry (`env.rs`), the polymorphic
database operations (`db/polymorph.rs`), the `Store`/`Table` engine layer
(`store/mdb.rs`, `store/rck.rs`, `store/rck/raw.rs`) and the `Str` codec
(`heed-types/src/str.rs`).

Keys and values are byte sequences, modelled as `List Nat` (each element a
byte value).  The underlying storage engines (LMDB / RocksDB) are external
collaborators; they are modelled through their documented primitives as a
byte-lexicographically sorted association list.
-/

namespace Heed

/-- A byte string: the raw key/value representation used by the engines. -/
abbrev Bytes := List Nat

/-- Strict byte-lexicographic order on byte strings.  This is the key order
of both wrapped engines (LMDB default key comparison and RocksDB's default
bytewise comparator): a proper prefix sorts before its extensions, otherwise
the first differing byte decides. -/
def byteLt : Bytes → Bytes → Bool
  | [], [] => false
  | [], _ :: _ => true
  | _ :: _, [] => false
  | a :: as, b :: bs => if a < b then true else if b < a then false else byteLt as bs

/-- Non-strict byte-lexicographic order. -/
def byteLe (a b : Bytes) : Bool := !byteLt b a

theorem byteLt_irrefl (a : Bytes) : byteLt a a = false := by
  induction a with
  | nil => rfl
  | cons x xs ih => simp [byteLt, ih]

theorem byteLt_trans {a b c : Bytes} (hab : byteLt a b = true)
    (hbc : byteLt b c = true) : byteLt a c = true := by
  induction a generalizing b c with
  | nil =>
    cases c with
    | nil =>
      cases b with
      | nil => exact absurd hab (by simp [byteLt])
      | cons y ys => exact absurd hbc (by simp [byteLt])
    | cons z zs => simp [byteLt]
  | cons x xs ih =>
    cases b with
    | nil => exact absurd hab (by simp [byteLt])
    | cons y ys =>
      cases c with
      | nil => exact absurd hbc (by simp [byteLt])
      | cons z zs =>
        simp only [byteLt] at hab hbc ⊢
        by_cases hxy : x < y
        · by_cases hyz : y < z
          · simp [Nat.lt_trans hxy hyz]
          · rw [if_neg hyz] at hbc
            by_cases hzy : z < y
            · rw [if_pos hzy] at hbc
              exact absurd hbc (by simp)
            · have : y = z := Nat.le_antisymm (Nat.le_of_not_lt hzy) (Nat.le_of_not_lt hyz)
              subst this
              simp [hxy]
        · rw [if_neg hxy] at hab
          by_cases hyx : y < x
          · rw [if_pos hyx] at hab
            exact absurd hab (by simp)
          · have hxy' : x = y := Nat.le_antisymm (Nat.le_of_not_lt hyx) (Nat.le_of_not_lt hxy)
            subst hxy'
            rw [if_neg (Nat.lt_irrefl x)] at hab
            by_cases hxz : x < z
            · simp [hxz]
            · rw [if_neg hxz] at hbc
              by_cases hzx : z < x
              · rw [if_pos hzx] at hbc
                exact absurd hbc (by simp)
              · rw [if_neg hzx] at hbc
                simp only [if_neg hxz, if_neg hzx]
                exact ih hab hbc

theorem byteLt_asymm {a b : Bytes} (h : byteLt a b = true) : byteLt b a = false := by
  by_contra hne
  have hba : byteLt b a = true := by
    cases hcase : byteLt b a
    · exact absurd hcase hne
    · rfl
  have : byteLt a a = true := byteLt_trans h hba
  rw [byteLt_irrefl] at this
  exact Bool.false_ne_true this

theorem byteLt_total {a b : Bytes} (hab : byteLt a b = false)
    (hba : byteLt b a = false) : a = b := by
  induction a generalizing b with
  | nil =>
    cases b with
    | nil => rfl
    | cons y ys => exact absurd hab (by simp [byteLt])
  | cons x xs ih =>
    cases b with
    | nil => exact absurd hba (by simp [byteLt])
    | cons y ys =>
      simp only [byteLt] at hab hba
      by_cases hxy : x < y
      · simp [hxy] at hab
      · by_cases hyx : y < x
        · simp [hyx] at hba
        · have hxy' : x = y := Nat.le_antisymm (Nat.le_of_not_lt hyx) (Nat.le_of_not_lt hxy)
          subst hxy'
          simp only [if_neg (Nat.lt_irrefl x)] at hab hba
          rw [ih hab hba]

/-- Any byte string is `≥` the empty byte string: nothing sorts strictly
below `[]` in byte-lexicographic order. -/
theorem byteLt_nil_right (a : Bytes) : byteLt a [] = false := by
  cases a <;> rfl

/-! ## The engine-level table model

Both wrapped engines expose one table as a byte-keyed collection whose keys
are unique and iterated in byte-lexicographic order.  A table is embedded as
an association list of key/value byte strings; the engine invariant is that
keys are strictly increasing. -/

/-- One stored key/value pair. -/
abbrev Entry := Bytes × Bytes

/-- The contents of one table. -/
abbrev TableState := List Entry

/-- The engine invariant: stored keys strictly increase byte-lexicographically
(in particular they are pairwise distinct). -/
def KeysSorted (s : TableState) : Prop :=
  List.Pairwise (fun e f => byteLt e.1 f.1 = true) s

instance (s : TableState) : Decidable (KeysSorted s) := by
  unfold KeysSorted
  infer_instance

/-- Modelled from the spec: the external B-tree engine's point lookup
(`mdb_get`), consumed by the wrapper through its transaction primitives.
Returns the value bytes stored under exactly this key, if any. -/
def mdb_get (s : TableState) (k : Bytes) : Option Bytes :=
  (s.find? (fun e => e.1 == k)).map (·.2)

/-- Modelled from the spec: the external B-tree engine's point delete
(`mdb_del`).  Removes the entry with exactly this key when present and
reports whether an entry was removed; an absent key leaves the table
unchanged and reports `false` (the engine's not-found outcome). -/
def mdb_del (s : TableState) (k : Bytes) : TableState × Bool :=
  if s.any (fun e => e.1 == k) then (s.filter (fun e => !(e.1 == k)), true)
  else (s, false)

/-- Modelled from the spec: the external B-tree engine's point insert
(`mdb_put` with no flags): replaces the value of an existing key or inserts
the pair at its byte-lexicographic position. -/
def mdb_put : TableState → Bytes → Bytes → TableState
  | [], k, v => [(k, v)]
  | e :: s, k, v =>
    if byteLt k e.1 then (k, v) :: e :: s
    else if e.1 == k then (k, v) :: s
    else e :: mdb_put s k v

/-- `mdb_del` always leaves the entries whose key differs, whether or not
the deleted key was present. -/
theorem mdb_del_fst (s : TableState) (k : Bytes) :
    (mdb_del s k).1 = s.filter (fun e => !(e.1 == k)) := by
  rw [mdb_del]
  by_cases h : s.any (fun e => e.1 == k) = true
  · rw [if_pos h]
  · rw [if_neg h]
    simp only [List.any_eq_true, not_exists, not_and, Bool.not_eq_true] at h
    have : ∀ e ∈ s, (!(e.1 == k)) = true := by
      intro e he
      rw [h e he]
      rfl
    simp only
    rw [List.filter_eq_self.mpr this]

/-! ## Codecs and errors

`heed-traits` (`src/heed-traits/src/lib.rs`) defines the two codec
capabilities `BytesEncode` / `BytesDecode`; a codec is a pair of pure
partial functions between a typed value and bytes.  Rust expresses a codec
as a type implementing the traits; the value-level embedding is a record of
the two functions. -/

/-- A codec pair: `bytes_encode`/`bytes_decode` from `heed-traits`. -/
structure Codec (α : Type) where
  encode : α → Option Bytes
  decode : Bytes → Option α

/-- Modelled from the spec: the crate error type (defined in the crate root,
which is not part of the sources; its variants `Encoding`, `Decoding`,
`BadOpenOptions`, `DatabaseClosing` and `InvalidDatabaseTyping` are the ones
constructed by `env.rs` and `db/polymorph.rs`, matching the error kinds of
the spec's error-handling design). -/
inductive HError
  | ioError
  | encoding
  | decoding
  | badOpenOptions
  | databaseClosing
  | invalidDatabaseTyping
  deriving DecidableEq, Repr

/-- The crate's `Result` alias. -/
abbrev HResult (α : Type) := Except HError α

/-! ## The cursor model

The cursor module is not part of the sources; the spec describes it as "a
mutable position over one table's sorted byte-keyspace" with the movement
primitives move-to-first, move-to-last, move-to-next, move-to-previous and
move-to-key-greater-or-equal.  A cursor is its table snapshot plus an
optional position; `none` is the unpositioned state (fresh cursor, or after
a failed greater-or-equal seek), from which the wrapped engine's previous
step lands on the last entry. -/

/-- Modelled from the spec: a read cursor (`RoCursor`), a position over the
sorted byte keyspace of one table within one transaction. -/
structure RoCursor where
  entries : TableState
  pos : Option Nat

/-- `RoCursor::new`: a fresh, unpositioned cursor over the table. -/
def RoCursor.new (s : TableState) : RoCursor := ⟨s, none⟩

/-- Modelled from the spec: move-to-first.  Positions the cursor on the
first entry and yields it, or yields nothing on an empty table. -/
def RoCursor.move_on_first (c : RoCursor) : RoCursor × Option Entry :=
  match c.entries with
  | [] => ({ c with pos := none }, none)
  | e :: _ => ({ c with pos := some 0 }, some e)

/-- Modelled from the spec: move-to-next.  From position `i` steps to
`i + 1` when an entry exists there; from the unpositioned state steps to
the first entry. -/
def RoCursor.move_on_next (c : RoCursor) : RoCursor × Option Entry :=
  match c.pos with
  | none =>
    match c.entries with
    | [] => (c, none)
    | e :: _ => ({ c with pos := some 0 }, some e)
  | some i =>
    match c.entries[i + 1]? with
    | some e => ({ c with pos := some (i + 1) }, some e)
    | none => (c, none)

/-- Modelled from the spec: move-to-previous.  From position `i` steps to
`i - 1` (yielding nothing at the very first entry); from the unpositioned
state the wrapped engine lands on the last entry. -/
def RoCursor.move_on_prev (c : RoCursor) : RoCursor × Option Entry :=
  match c.pos with
  | none =>
    match c.entries.getLast? with
    | some e => ({ c with pos := some (c.entries.length - 1) }, some e)
    | none => (c, none)
  | some i =>
    if i = 0 then ({ c with pos := none }, none)
    else
      match c.entries[i - 1]? with
      | some e => ({ c with pos := some (i - 1) }, some e)
      | none => (c, none)

/-- Modelled from the spec: move-to-key-greater-or-equal.  Seeks to the
first entry whose key is `≥` the target in byte order and yields it; when
every key is smaller the cursor is left unpositioned. -/
def RoCursor.move_on_key_greater_than_or_equal_to (c : RoCursor) (k : Bytes) :
    RoCursor × Option Entry :=
  let i := c.entries.findIdx (fun e => !byteLt e.1 k)
  match c.entries[i]? with
  | some e => ({ c with pos := some i }, some e)
  | none => ({ c with pos := none }, none)

/-! ## `PolyDatabase` operations (`src/heed/src/db/polymorph.rs`)

The polymorphic database takes its codec pair at every call.  The handle
itself is `(env identity, dbi)`; operations act on the contents of the
designated table, embedded here as the `TableState` the transaction
observes.  The `assert_eq!(self.env_ident, txn.env ...)` cross-environment
guard compares raw pointers of a single process image and is outside this
embedding. -/

/-- `PolyDatabase::get`: encode the key (`Error::Encoding` on failure), do
the engine point lookup (absence is `Ok(None)`, not an error), and decode a
found value (`Error::Decoding` on failure). -/
def PolyDatabase.get {κ δ : Type} (kc : Codec κ) (dc : Codec δ)
    (s : TableState) (k : κ) : HResult (Option δ) :=
  match kc.encode k with
  | none => .error .encoding
  | some kb =>
    match mdb_get s kb with
    | some data =>
      match dc.decode data with
      | some v => .ok (some v)
      | none => .error .decoding
    | none => .ok none

/-- `PolyDatabase::delete`: encode the key (`Error::Encoding` on failure)
and do the engine point delete; `Ok(true)` when an entry was removed,
`Ok(false)` for the engine's not-found outcome. -/
def PolyDatabase.delete {κ : Type} (kc : Codec κ)
    (s : TableState) (k : κ) : HResult (TableState × Bool) :=
  match kc.encode k with
  | none => .error .encoding
  | some kb => .ok (mdb_del s kb)

/-- `PolyDatabase::put`: encode key and value (`Error::Encoding` on either
failure) and insert through the engine. -/
def PolyDatabase.put {κ δ : Type} (kc : Codec κ) (dc : Codec δ)
    (s : TableState) (k : κ) (v : δ) : HResult TableState :=
  match kc.encode k with
  | none => .error .encoding
  | some kb =>
    match dc.encode v with
    | none => .error .encoding
    | some vb => .ok (mdb_put s kb vb)

/-- `PolyDatabase::get_lower_than`: encode the key, seek the cursor to the
greater-or-equal position, step one entry backward, and decode the entry
found there (`Error::Decoding` when either half fails to decode). -/
def PolyDatabase.get_lower_than {κ δ : Type} (kc : Codec κ) (dc : Codec δ)
    (s : TableState) (k : κ) : HResult (Option (κ × δ)) :=
  match kc.encode k with
  | none => .error .encoding
  | some kb =>
    let c := RoCursor.new s
    let c := (c.move_on_key_greater_than_or_equal_to kb).1
    match c.move_on_prev with
    | (_, some (key, data)) =>
      match kc.decode key, dc.decode data with
      | some k2, some d2 => .ok (some (k2, d2))
      | _, _ => .error .decoding
    | (_, none) => .ok none

/-- The body of `PolyDatabase::len`'s counting loop
(`while let Some(_) = cursor.move_on_next()? { count += 1 }`); from
position `i`, `move_on_next` yields an entry exactly when `i + 1` is in
bounds. -/
def PolyDatabase.lenLoop (s : TableState) (i count : Nat) : Nat :=
  if _h : i + 1 < s.length then PolyDatabase.lenLoop s (i + 1) (count + 1) else count
termination_by s.length - i

/-- `PolyDatabase::len`: move to the first entry (`0` when there is none)
then count successor steps until the cursor is exhausted. -/
def PolyDatabase.len (s : TableState) : Nat :=
  match (RoCursor.new s).move_on_first with
  | (_, none) => 0
  | (_, some _) => PolyDatabase.lenLoop s 0 1

/-! ## Ranges and `delete_range` -/

/-- `std::ops::Bound`, one endpoint of a range. -/
inductive RBound (α : Type)
  | included (a : α)
  | excluded (a : α)
  | unbounded

/-- A pair of range endpoints, as produced by `RangeBounds`. -/
structure RangeB (α : Type) where
  lo : RBound α
  hi : RBound α

/-- Does the byte key satisfy the start bound? -/
def RBound.satLo : RBound Bytes → Bytes → Bool
  | .included a, k => byteLe a k
  | .excluded a, k => byteLt a k
  | .unbounded, _ => true

/-- Does the byte key satisfy the end bound? -/
def RBound.satHi : RBound Bytes → Bytes → Bool
  | .included b, k => byteLe k b
  | .excluded b, k => byteLt k b
  | .unbounded, _ => true

/-- The bound predicate of a byte range: both endpoints satisfied. -/
def RangeB.contains (r : RangeB Bytes) (k : Bytes) : Bool :=
  r.lo.satLo k && r.hi.satHi k

/-- `range_mut`'s endpoint encoding: each bound's typed value is encoded
through the key codec, `Error::Encoding` on failure (from
`PolyDatabase::range_mut`). -/
def RBound.encodeWith {κ : Type} (kc : Codec κ) : RBound κ → HResult (RBound Bytes)
  | .included a =>
    match kc.encode a with
    | none => .error .encoding
    | some b => .ok (.included b)
  | .excluded a =>
    match kc.encode a with
    | none => .error .encoding
    | some b => .ok (.excluded b)
  | .unbounded => .ok .unbounded

/-- Both endpoints of a typed range encoded to byte bounds. -/
def RangeB.encodeWith {κ : Type} (kc : Codec κ) (r : RangeB κ) :
    HResult (RangeB Bytes) :=
  match r.lo.encodeWith kc with
  | .error e => .error e
  | .ok lo =>
    match r.hi.encodeWith kc with
    | .error e => .error e
    | .ok hi => .ok ⟨lo, hi⟩

/-- Modelled from the spec: the `delete_range` loop over the mutable range
iterator (the iterator module is not part of the sources): each step visits
the first remaining entry inside the bounds — on a sorted table this is the
entry the range cursor is positioned on — deletes it through the cursor
(`del_current`) and counts it; the loop ends when the bounded range is
exhausted. -/
def PolyDatabase.deleteRangeLoop (r : RangeB Bytes) (s : TableState) (count : Nat) :
    TableState × Nat :=
  match h : s.find? (fun e => r.contains e.1) with
  | some _ =>
    PolyDatabase.deleteRangeLoop r (s.eraseP (fun e => r.contains e.1)) (count + 1)
  | none => (s, count)
termination_by s.length
decreasing_by
  have hm : ∃ e ∈ s, r.contains e.1 = true := by
    rcases List.find?_some h, List.mem_of_find?_eq_some h with ⟨h1, h2⟩
    exact ⟨_, h2, h1⟩
  rcases hm with ⟨e, he, hp⟩
  have hp' : (fun e => r.contains e.1) e = true := hp
  have h2 := @List.length_eraseP_add_one _ (fun e => r.contains e.1) s e he hp'
  omega

/-- `PolyDatabase::delete_range`: encode the endpoints (`Error::Encoding`
on failure), then iterate the bounded mutable range deleting every visited
entry, returning how many entries were removed. -/
def PolyDatabase.delete_range {κ : Type} (kc : Codec κ)
    (s : TableState) (range : RangeB κ) : HResult (TableState × Nat) :=
  match range.encodeWith kc with
  | .error e => .error e
  | .ok rb => .ok (PolyDatabase.deleteRangeLoop rb s 0)

/-! ## The LSM (RocksDB) engine layer

`src/heed/src/store/rck.rs` wraps `rocksdb::TransactionDB` and
`src/heed/src/store/rck/raw.rs` wraps the non-transactional
`DBWithThreadMode`; both map a named `Table` onto a column family.  A store
is embedded as its default column family plus the named column families;
the RocksDB point primitives behave as unique-key map operations. -/

/-- A RocksDB store: a default column family plus named column families. -/
structure RockDb where
  defaultCf : TableState
  cfs : List (String × TableState)

/-- The contents of the named column family (empty when absent). -/
def RockDb.cf (db : RockDb) (name : String) : TableState :=
  ((db.cfs.find? (fun c => c.1 == name)).map (·.2)).getD []

/-- Modelled from the spec: RocksDB's point delete (`delete_cf`), a plain
removal of the key from the column family. -/
def rocks_delete (s : TableState) (k : Bytes) : TableState :=
  s.filter (fun e => !(e.1 == k))

/-- Modelled from the spec: RocksDB's `delete_range_cf(from, to)`, removing
every key `k` of the column family with `from ≤ k < to` in byte order. -/
def rocks_delete_range (s : TableState) (lo hi : Bytes) : TableState :=
  s.filter (fun e => !(byteLe lo e.1 && byteLt e.1 hi))

/-- Modelled from the spec: the `ByteSlice` identity codec of `heed-types`
(a byte slice encodes and decodes as itself). -/
def ByteSlice : Codec Bytes := ⟨fun b => some b, fun b => some b⟩

/-- `RockTable::get` (`store/rck.rs`): the key is encoded with
`.unwrap()` — an encoding failure PANICS (modelled as the outer `none`) —
and a fetched value that fails to decode is folded into absence via
`and_then`, so the `Ok` payload is `None` both for a missing key and for an
undecodable value. -/
def RockTable.get {κ δ : Type} (kc : Codec κ) (dc : Codec δ)
    (db : RockDb) (cf : String) (k : κ) : Option (HResult (Option δ)) :=
  match kc.encode k with
  | none => none
  | some kb => some (.ok ((mdb_get (db.cf cf) kb).bind dc.decode))

/-- `RockTable::put` (`store/rck.rs`): both codec results are taken with
`.unwrap()` — either encoding failure PANICS (the outer `none`). -/
def RockTable.put {κ δ : Type} (kc : Codec κ) (dc : Codec δ)
    (s : TableState) (k : κ) (v : δ) : Option (HResult TableState) :=
  match kc.encode k with
  | none => none
  | some kb =>
    match dc.encode v with
    | none => none
    | some vb => some (.ok (mdb_put s kb vb))

/-- The item decoding done by the range iterator's `Iterator::next`
(`store/rck.rs`): both halves are decoded with `.unwrap()` — a decoding
failure PANICS (modelled as `none`). -/
def RockTable.iterDecode {κ δ : Type} (kc : Codec κ) (dc : Codec δ)
    (e : Entry) : Option (κ × δ) :=
  match kc.decode e.1, dc.decode e.2 with
  | some a, some b => some (a, b)
  | _, _ => none

/-- `RockTable::len` (`store/rck.rs` and `store/rck/raw.rs`): counts
`txn.tx.iterator(IteratorMode::Start)` — the iterator of the store's
DEFAULT column family, not `iterator_cf` of the table's own column family
`self.cf`, whose handle is unused here. -/
def RockTable.len (db : RockDb) (_cf : String) : Nat :=
  db.defaultCf.length

/-- `RockTable::clear` (`store/rck.rs`, the `TransactionDB` wrapper):
collects every key of the column family through the unbounded range
iterator (`&..`, start mode, no iteration bounds) and then deletes each
collected key. -/
def RockTable.clear (s : TableState) : TableState :=
  (s.map (·.1)).foldl (fun st k => rocks_delete st k) s

/-- The 512-byte `0xFF` sentinel used as the exclusive upper bound of the
raw wrapper's `clear`. -/
def ffSentinel : Bytes := List.replicate 512 255

/-- `RockTable::clear` (`store/rck/raw.rs`, the non-transactional wrapper):
`delete_range_cf(&[], &vec![0xFF; 512])` — a bounded delete of the byte
range from the empty key up to, excluding, the 512-byte `0xFF` sentinel. -/
def Raw.RockTable.clear (s : TableState) : TableState :=
  rocks_delete_range s [] ffSentinel

/-! ## The environment registry (`src/heed/src/env.rs`)

`OPENED_ENV` is the process-wide map from canonicalized path to `EnvEntry`;
an entry holds the (optional) shared environment handle, the manual-reset
close event and the options the environment was opened with.  The native
environment object is identified by an `EnvId` (its pointer identity);
filesystem canonicalization and native-open I/O failures are external and
outside the embedding, so `open` takes the canonical path and the identity
a successful native open would produce. -/

abbrev EnvId := Nat
abbrev EnvPath := String

/-- The engine-geometry subset of the options (`lmdb` feature: map size and
page size). -/
structure Geometry where
  map_size : Option Nat
  page_size : Option Nat
  deriving DecidableEq, Repr

/-- `EnvOpenOptions`: geometry, reader/database limits and the engine flag
bitmask; compared with derived equality (`PartialEq`) on reopen. -/
structure EnvOpenOptions where
  geometry : Geometry
  max_readers : Option Nat
  max_dbs : Option Nat
  flags : Nat
  deriving DecidableEq, Repr

/-- One `OPENED_ENV` entry: the environment handle (`none` once marked as
closing), the close event (`false` until signalled) and the recorded open
options. -/
structure EnvEntry where
  env : Option EnvId
  signal_event : Bool
  options : EnvOpenOptions

/-- The `OPENED_ENV` registry: canonical path to entry. -/
abbrev OpenedEnv := List (EnvPath × EnvEntry)

/-- Registry lookup by canonical path. -/
def OpenedEnv.lookup (r : OpenedEnv) (p : EnvPath) : Option EnvEntry :=
  ((r.find? (fun e => e.1 == p)).map (·.2))

/-- `EnvOpenOptions::open` on an already canonicalized path.  An occupied
entry is compared against the requested options first (`BadOpenOptions` on
mismatch); a matching entry yields a clone of the stored handle, or
`DatabaseClosing` when the handle was taken by `prepare_for_closing`.  A
vacant path performs the native open (pure in the model, producing the
fresh identity `fresh`) and inserts the new entry with an unsignalled close
event. -/
def EnvOpenOptions.open (opts : EnvOpenOptions) (reg : OpenedEnv)
    (path : EnvPath) (fresh : EnvId) : HResult (OpenedEnv × EnvId) :=
  match reg.lookup path with
  | some entry =>
    if entry.options ≠ opts then .error .badOpenOptions
    else
      match entry.env with
      | some e => .ok (reg, e)
      | none => .error .databaseClosing
  | none => .ok ((path, ⟨some fresh, false, opts⟩) :: reg, fresh)

/-- `Env::prepare_for_closing`: `none` is the
`panic!("cannot find the env that we are trying to close")` outcome; on a
present entry the handle is taken (`env.take()`, leaving `None`) and the
entry's close event is returned (second component: its signalled state). -/
def Env.prepare_for_closing (reg : OpenedEnv) (path : EnvPath) :
    Option (OpenedEnv × Bool) :=
  match reg.lookup path with
  | none => none
  | some entry =>
    some (reg.map (fun e => if e.1 == path then (e.1, { e.2 with env := none }) else e),
      entry.signal_event)

/-- `Drop for EnvInner`, run when the last `Env` reference is dropped:
`none` is the `panic!("It seems another env closed this env before")`
outcome when the registry has no entry for the path; otherwise the entry is
removed, the native environment is closed and the close event is signalled
(second component: the event's state after `signal()`). -/
def EnvInner.drop (reg : OpenedEnv) (path : EnvPath) :
    Option (OpenedEnv × Bool) :=
  match reg.lookup path with
  | none => none
  | some _ => some (reg.filter (fun e => !(e.1 == path)), true)

/-! ## Per-environment database typing (`Env::raw_init_database`) -/

abbrev TypeId := Nat
abbrev Dbi := Nat

/-- The `dbi_open_mutex` map of one environment: raw table identifier to
the recorded codec pair — `none` records a polymorphic open
(`create_poly_database` / `open_poly_database` pass no types). -/
abbrev DbiOpenMap := List (Dbi × Option (TypeId × TypeId))

/-- `Env::raw_init_database` after the native `mdb_dbi_open` resolved the
optional name to the raw identifier `dbi` (the same name always resolves to
the same identifier): `entry(dbi).or_insert(types)` records the presented
pair on first open, and every open returns `Ok(dbi)` exactly when the
recorded pair equals the presented one, `Err(InvalidDatabaseTyping)`
otherwise. -/
def Env.raw_init_database (m : DbiOpenMap) (dbi : Dbi)
    (types : Option (TypeId × TypeId)) : HResult (DbiOpenMap × Dbi) :=
  match (m.find? (fun e => e.1 == dbi)).map (·.2) with
  | none => .ok ((dbi, types) :: m, dbi)
  | some old => if old = types then .ok (m, dbi) else .error .invalidDatabaseTyping

/-! ## The `Str` codec (`src/heed-types/src/str.rs`)

A Rust `str` is a sequence of Unicode scalar values stored as UTF-8;
`Str::bytes_encode` is `UnalignedSlice::<u8>::bytes_encode(item.as_bytes())`
and `Str::bytes_decode` is `std::str::from_utf8(bytes).ok().map(to_string)`.
A string is embedded as its list of scalar values; `str::as_bytes` is the
UTF-8 encoding and `from_utf8` the strict UTF-8 validation of the Rust
standard library (rejecting overlong forms, surrogates and code points
beyond `0x10FFFF`), both external collaborators modelled below. -/

/-- A Unicode scalar value: what one Rust `char` may hold. -/
def ScalarValue (c : Nat) : Prop := c < 0xD800 ∨ (0xE000 ≤ c ∧ c < 0x110000)

instance (c : Nat) : Decidable (ScalarValue c) := by
  unfold ScalarValue
  infer_instance

/-- Modelled from the spec: the UTF-8 encoding of one scalar value
(1 to 4 bytes). -/
def utf8EncodeChar (c : Nat) : List Nat :=
  if c < 0x80 then [c]
  else if c < 0x800 then [0xC0 + c / 64, 0x80 + c % 64]
  else if c < 0x10000 then [0xE0 + c / 4096, 0x80 + c / 64 % 64, 0x80 + c % 64]
  else [0xF0 + c / 262144, 0x80 + c / 4096 % 64, 0x80 + c / 64 % 64, 0x80 + c % 64]

/-- `str::as_bytes`: the UTF-8 encoding of the string. -/
def utf8Encode (s : List Nat) : List Nat := s.flatMap utf8EncodeChar

/-- Modelled from the spec: one step of strict UTF-8 validation — parse one
scalar value off the front of the byte stream.  Rejects stray continuation
bytes, overlong forms (`0xC0`/`0xC1` leads, `0xE0` with a second byte below
`0xA0`, `0xF0` with a second byte below `0x90`), surrogate encodings
(`0xED` with a second byte at or above `0xA0`) and code points beyond
`0x10FFFF` (leads above `0xF4`, `0xF4` with a second byte at or above
`0x90`). -/
def utf8DecodeOne : List Nat → Option (Nat × List Nat)
  | [] => none
  | b0 :: rest =>
    if b0 < 0x80 then some (b0, rest)
    else if b0 < 0xC2 then none
    else if b0 < 0xE0 then
      match rest with
      | b1 :: rest1 =>
        if 0x80 ≤ b1 ∧ b1 < 0xC0 then
          some ((b0 - 0xC0) * 64 + (b1 - 0x80), rest1)
        else none
      | [] => none
    else if b0 < 0xF0 then
      match rest with
      | b1 :: b2 :: rest2 =>
        if (0x80 ≤ b1 ∧ b1 < 0xC0) ∧ (0x80 ≤ b2 ∧ b2 < 0xC0)
            ∧ (b0 = 0xE0 → 0xA0 ≤ b1) ∧ (b0 = 0xED → b1 < 0xA0) then
          some ((b0 - 0xE0) * 4096 + (b1 - 0x80) * 64 + (b2 - 0x80), rest2)
        else none
      | _ => none
    else if b0 < 0xF5 then
      match rest with
      | b1 :: b2 :: b3 :: rest3 =>
        if (0x80 ≤ b1 ∧ b1 < 0xC0) ∧ (0x80 ≤ b2 ∧ b2 < 0xC0) ∧ (0x80 ≤ b3 ∧ b3 < 0xC0)
            ∧ (b0 = 0xF0 → 0x90 ≤ b1) ∧ (b0 = 0xF4 → b1 < 0x90) then
          some ((b0 - 0xF0) * 262144 + (b1 - 0x80) * 4096 + (b2 - 0x80) * 64 + (b3 - 0x80),
            rest3)
        else none
      | _ => none
    else none

theorem utf8DecodeOne_length : ∀ (l : List Nat) (c : Nat) (rest : List Nat),
    utf8DecodeOne l = some (c, rest) → rest.length < l.length := by
  intro l c rest h
  match l with
  | [] => simp [utf8DecodeOne] at h
  | [b0] =>
    simp only [utf8DecodeOne] at h
    split_ifs at h <;> simp_all <;> omega
  | [b0, b1] =>
    simp only [utf8DecodeOne] at h
    split_ifs at h <;> simp_all <;> omega
  | [b0, b1, b2] =>
    simp only [utf8DecodeOne] at h
    split_ifs at h <;> simp_all <;> omega
  | b0 :: b1 :: b2 :: b3 :: t =>
    simp only [utf8DecodeOne] at h
    split_ifs at h <;> simp_all <;> omega

/-- `std::str::from_utf8` (then `to_string`): strict UTF-8 validation of
the whole byte stream, `none` exactly on invalid input. -/
def utf8Decode (l : List Nat) : Option (List Nat) :=
  match hd : utf8DecodeOne l with
  | none => if l.isEmpty then some [] else none
  | some (c, rest) =>
    match utf8Decode rest with
    | some cs => some (c :: cs)
    | none => none
termination_by l.length
decreasing_by exact utf8DecodeOne_length l c rest hd

/-- `Str::bytes_encode`: `UnalignedSlice::<u8>::bytes_encode(item.as_bytes())`;
the byte-slice codec encodes the UTF-8 bytes as themselves, so encoding
never fails. -/
def Str.bytes_encode (s : List Nat) : Option Bytes := some (utf8Encode s)

/-- `Str::bytes_decode`: `std::str::from_utf8(bytes).ok().map(to_string)`. -/
def Str.bytes_decode (b : Bytes) : Option (List Nat) := utf8Decode b

/-- Parsing one scalar value off its own UTF-8 encoding (followed by
anything) recovers the value and the remainder. -/
theorem utf8DecodeOne_encodeChar (c : Nat) (rest : List Nat) (h : ScalarValue c) :
    utf8DecodeOne (utf8EncodeChar c ++ rest) = some (c, rest) := by
  rw [utf8EncodeChar]
  by_cases h1 : c < 0x80
  · rw [if_pos h1]
    simp only [List.cons_append, List.nil_append, utf8DecodeOne]
    rw [if_pos h1]
  · rw [if_neg h1]
    by_cases h2 : c < 0x800
    · rw [if_pos h2]
      simp only [List.cons_append, List.nil_append, utf8DecodeOne]
      have hb0a : ¬ (0xC0 + c / 64 < 0x80) := by omega
      have hb0b : ¬ (0xC0 + c / 64 < 0xC2) := by omega
      have hb0c : 0xC0 + c / 64 < 0xE0 := by omega
      rw [if_neg hb0a, if_neg hb0b, if_pos hb0c]
      have hcont : 0x80 ≤ 0x80 + c % 64 ∧ 0x80 + c % 64 < 0xC0 := by omega
      simp only [if_pos hcont]
      have hval : (0xC0 + c / 64 - 0xC0) * 64 + (0x80 + c % 64 - 0x80) = c := by omega
      rw [hval]
    · rw [if_neg h2]
      by_cases h3 : c < 0x10000
      · rw [if_pos h3]
        simp only [List.cons_append, List.nil_append, utf8DecodeOne]
        have hb0a : ¬ (0xE0 + c / 4096 < 0x80) := by omega
        have hb0b : ¬ (0xE0 + c / 4096 < 0xC2) := by omega
        have hb0c : ¬ (0xE0 + c / 4096 < 0xE0) := by omega
        have hb0d : 0xE0 + c / 4096 < 0xF0 := by omega
        rw [if_neg hb0a, if_neg hb0b, if_neg hb0c, if_pos hb0d]
        have hcond : (0x80 ≤ 0x80 + c / 64 % 64 ∧ 0x80 + c / 64 % 64 < 0xC0)
            ∧ (0x80 ≤ 0x80 + c % 64 ∧ 0x80 + c % 64 < 0xC0)
            ∧ (0xE0 + c / 4096 = 0xE0 → 0xA0 ≤ 0x80 + c / 64 % 64)
            ∧ (0xE0 + c / 4096 = 0xED → 0x80 + c / 64 % 64 < 0xA0) := by
          refine ⟨by omega, by omega, by omega, ?_⟩
          intro hed
          rcases h with hlo | hhi
          · omega
          · omega
        simp only [if_pos hcond]
        have hval : (0xE0 + c / 4096 - 0xE0) * 4096 + (0x80 + c / 64 % 64 - 0x80) * 64
            + (0x80 + c % 64 - 0x80) = c := by omega
        rw [hval]
      · rw [if_neg h3]
        have h4 : c < 0x110000 := by
          rcases h with hlo | hhi
          · omega
          · exact hhi.2
        simp only [List.cons_append, List.nil_append, utf8DecodeOne]
        have hb0a : ¬ (0xF0 + c / 262144 < 0x80) := by omega
        have hb0b : ¬ (0xF0 + c / 262144 < 0xC2) := by omega
        have hb0c : ¬ (0xF0 + c / 262144 < 0xE0) := by omega
        have hb0d : ¬ (0xF0 + c / 262144 < 0xF0) := by omega
        have hb0e : 0xF0 + c / 262144 < 0xF5 := by omega
        rw [if_neg hb0a, if_neg hb0b, if_neg hb0c, if_neg hb0d, if_pos hb0e]
        have hcond : (0x80 ≤ 0x80 + c / 4096 % 64 ∧ 0x80 + c / 4096 % 64 < 0xC0)
            ∧ (0x80 ≤ 0x80 + c / 64 % 64 ∧ 0x80 + c / 64 % 64 < 0xC0)
            ∧ (0x80 ≤ 0x80 + c % 64 ∧ 0x80 + c % 64 < 0xC0)
            ∧ (0xF0 + c / 262144 = 0xF0 → 0x90 ≤ 0x80 + c / 4096 % 64)
            ∧ (0xF0 + c / 262144 = 0xF4 → 0x80 + c / 4096 % 64 < 0x90) := by
          refine ⟨by omega, by omega, by omega, by omega, by omega⟩
        simp only [if_pos hcond]
        have hval : (0xF0 + c / 262144 - 0xF0) * 262144 + (0x80 + c / 4096 % 64 - 0x80) * 4096
            + (0x80 + c / 64 % 64 - 0x80) * 64 + (0x80 + c % 64 - 0x80) = c := by omega
        rw [hval]

/-- `utf8Decode` round-trips `utf8Encode` on any sequence of scalar
values. -/
theorem utf8Decode_encode (s : List Nat) (h : ∀ c ∈ s, ScalarValue c) :
    utf8Decode (utf8Encode s) = some s := by
  induction s with
  | nil =>
    rw [utf8Decode]
    rfl
  | cons c cs ih =>
    have hc : ScalarValue c := h c (List.mem_cons_self c cs)
    have hcs : ∀ x ∈ cs, ScalarValue x := fun x hx => h x (List.mem_cons_of_mem c hx)
    have henc : utf8Encode (c :: cs) = utf8EncodeChar c ++ utf8Encode cs := by
      simp [utf8Encode]
    rw [henc, utf8Decode]
    rw [utf8DecodeOne_encodeChar c (utf8Encode cs) hc]
    simp only
    rw [ih hcs]

/-- Soundness of one parsing step: a successfully parsed scalar value is a
scalar value whose encoding is exactly the bytes consumed. -/
theorem utf8DecodeOne_sound : ∀ (l : List Nat) (c : Nat) (rest : List Nat),
    utf8DecodeOne l = some (c, rest) →
    ScalarValue c ∧ l = utf8EncodeChar c ++ rest := by
  intro l c rest h
  match l with
  | [] => simp [utf8DecodeOne] at h
  | b0 :: t =>
    simp only [utf8DecodeOne] at h
    by_cases h1 : b0 < 0x80
    · rw [if_pos h1] at h
      obtain ⟨hc, hrest⟩ : b0 = c ∧ t = rest := by
        simpa using h
      subst hc hrest
      refine ⟨Or.inl (by omega), ?_⟩
      rw [utf8EncodeChar, if_pos h1]
      rfl
    · rw [if_neg h1] at h
      by_cases h2 : b0 < 0xC2
      · rw [if_pos h2] at h
        simp at h
      · rw [if_neg h2] at h
        by_cases h3 : b0 < 0xE0
        · rw [if_pos h3] at h
          match t with
          | [] => simp at h
          | b1 :: t1 =>
            simp only at h
            by_cases hcont : 0x80 ≤ b1 ∧ b1 < 0xC0
            · rw [if_pos hcont] at h
              obtain ⟨hc, hrest⟩ : (b0 - 0xC0) * 64 + (b1 - 0x80) = c ∧ t1 = rest := by
                simpa using h
              subst hc hrest
              constructor
              · exact Or.inl (by omega)
              · rw [utf8EncodeChar]
                have ha : ¬ ((b0 - 0xC0) * 64 + (b1 - 0x80) < 0x80) := by omega
                have hb : (b0 - 0xC0) * 64 + (b1 - 0x80) < 0x800 := by omega
                rw [if_neg ha, if_pos hb]
                have e1 : 0xC0 + ((b0 - 0xC0) * 64 + (b1 - 0x80)) / 64 = b0 := by omega
                have e2 : 0x80 + ((b0 - 0xC0) * 64 + (b1 - 0x80)) % 64 = b1 := by omega
                rw [e1, e2]
                rfl
            · rw [if_neg hcont] at h
              simp at h
        · rw [if_neg h3] at h
          by_cases h4 : b0 < 0xF0
          · rw [if_pos h4] at h
            match t with
            | [] => simp at h
            | [b1] => simp at h
            | b1 :: b2 :: t2 =>
              simp only at h
              by_cases hcond : (0x80 ≤ b1 ∧ b1 < 0xC0) ∧ (0x80 ≤ b2 ∧ b2 < 0xC0)
                  ∧ (b0 = 0xE0 → 0xA0 ≤ b1) ∧ (b0 = 0xED → b1 < 0xA0)
              · rw [if_pos hcond] at h
                obtain ⟨hc, hrest⟩ :
                    (b0 - 0xE0) * 4096 + (b1 - 0x80) * 64 + (b2 - 0x80) = c ∧ t2 = rest := by
                  simpa using h
                subst hc hrest
                obtain ⟨hc1, hc2, hov, hsur⟩ := hcond
                constructor
                · by_cases hed : b0 = 0xED
                  · exact Or.inl (by have := hsur hed; omega)
                  · by_cases hlt : b0 < 0xED
                    · exact Or.inl (by omega)
                    · exact Or.inr (by omega)
                · rw [utf8EncodeChar]
                  have ha : ¬ ((b0 - 0xE0) * 4096 + (b1 - 0x80) * 64 + (b2 - 0x80) < 0x80) := by
                    by_cases he0 : b0 = 0xE0
                    · have := hov he0; omega
                    · omega
                  have hb : ¬ ((b0 - 0xE0) * 4096 + (b1 - 0x80) * 64 + (b2 - 0x80) < 0x800) := by
                    by_cases he0 : b0 = 0xE0
                    · have := hov he0; omega
                    · omega
                  have hcc : (b0 - 0xE0) * 4096 + (b1 - 0x80) * 64 + (b2 - 0x80) < 0x10000 := by
                    omega
                  rw [if_neg ha, if_neg hb, if_pos hcc]
                  have e1 : 0xE0 + ((b0 - 0xE0) * 4096 + (b1 - 0x80) * 64 + (b2 - 0x80)) / 4096
                      = b0 := by omega
                  have e2 : 0x80 + ((b0 - 0xE0) * 4096 + (b1 - 0x80) * 64 + (b2 - 0x80)) / 64 % 64
                      = b1 := by omega
                  have e3 : 0x80 + ((b0 - 0xE0) * 4096 + (b1 - 0x80) * 64 + (b2 - 0x80)) % 64
                      = b2 := by omega
                  rw [e1, e2, e3]
                  rfl
              · rw [if_neg hcond] at h
                simp at h
          · rw [if_neg h4] at h
            by_cases h5 : b0 < 0xF5
            · rw [if_pos h5] at h
              match t with
              | [] => simp at h
              | [b1] => simp at h
              | [b1, b2] => simp at h
              | b1 :: b2 :: b3 :: t3 =>
                simp only at h
                by_cases hcond : (0x80 ≤ b1 ∧ b1 < 0xC0) ∧ (0x80 ≤ b2 ∧ b2 < 0xC0)
                    ∧ (0x80 ≤ b3 ∧ b3 < 0xC0)
                    ∧ (b0 = 0xF0 → 0x90 ≤ b1) ∧ (b0 = 0xF4 → b1 < 0x90)
                · rw [if_pos hcond] at h
                  obtain ⟨hc, hrest⟩ :
                      (b0 - 0xF0) * 262144 + (b1 - 0x80) * 4096 + (b2 - 0x80) * 64 + (b3 - 0x80)
                        = c ∧ t3 = rest := by
                    simpa using h
                  subst hc hrest
                  obtain ⟨hc1, hc2, hc3, hov, htop⟩ := hcond
                  constructor
                  · refine Or.inr ⟨by omega, ?_⟩
                    by_cases hf4 : b0 = 0xF4
                    · have := htop hf4; omega
                    · omega
                  · rw [utf8EncodeChar]
                    have hlo : ¬ ((b0 - 0xF0) * 262144 + (b1 - 0x80) * 4096 + (b2 - 0x80) * 64
                        + (b3 - 0x80) < 0x10000) := by
                      by_cases hf0 : b0 = 0xF0
                      · have := hov hf0; omega
                      · omega
                    have ha : ¬ ((b0 - 0xF0) * 262144 + (b1 - 0x80) * 4096 + (b2 - 0x80) * 64
                        + (b3 - 0x80) < 0x80) := by omega
                    have hb : ¬ ((b0 - 0xF0) * 262144 + (b1 - 0x80) * 4096 + (b2 - 0x80) * 64
                        + (b3 - 0x80) < 0x800) := by omega
                    rw [if_neg ha, if_neg hb, if_neg hlo]
                    have e1 : 0xF0 + ((b0 - 0xF0) * 262144 + (b1 - 0x80) * 4096 + (b2 - 0x80) * 64
                        + (b3 - 0x80)) / 262144 = b0 := by omega
                    have e2 : 0x80 + ((b0 - 0xF0) * 262144 + (b1 - 0x80) * 4096 + (b2 - 0x80) * 64
                        + (b3 - 0x80)) / 4096 % 64 = b1 := by omega
                    have e3 : 0x80 + ((b0 - 0xF0) * 262144 + (b1 - 0x80) * 4096 + (b2 - 0x80) * 64
                        + (b3 - 0x80)) / 64 % 64 = b2 := by omega
                    have e4 : 0x80 + ((b0 - 0xF0) * 262144 + (b1 - 0x80) * 4096 + (b2 - 0x80) * 64
                        + (b3 - 0x80)) % 64 = b3 := by omega
                    rw [e1, e2, e3, e4]
                    rfl
                · rw [if_neg hcond] at h
                  simp at h
            · rw [if_neg h5] at h
              simp at h

/-- Soundness of the whole validation: a byte stream `utf8Decode` accepts
is exactly the encoding of the scalar-value sequence it returns. -/
theorem utf8Decode_sound (l s : List Nat) (h : utf8Decode l = some s) :
    (∀ c ∈ s, ScalarValue c) ∧ utf8Encode s = l := by
  rw [utf8Decode] at h
  split at h
  next hd =>
    match l with
    | [] =>
      simp only [List.isEmpty_nil, if_pos] at h
      obtain rfl : ([] : List Nat) = s := by simpa using h
      exact ⟨by simp, rfl⟩
    | x :: t => simp at h
  next c rest hd =>
    split at h
    next cs hrec =>
      obtain rfl : c :: cs = s := by simpa using h
      obtain ⟨hsv, henc⟩ := utf8DecodeOne_sound l c rest hd
      obtain ⟨ihs, ihe⟩ := utf8Decode_sound rest cs hrec
      refine ⟨?_, ?_⟩
      · intro x hx
        rcases List.mem_cons.mp hx with rfl | hx
        · exact hsv
        · exact ihs x hx
      · rw [henc]
        simp only [utf8Encode, List.flatMap_cons] at ihe ⊢
        rw [ihe]
    next hrec =>
      simp at h
termination_by l.length
decreasing_by exact utf8DecodeOne_length _ _ _ (by assumption)

/-! ## Supporting lemmas -/

/-- Filtering an association list down to the other keys makes a key
unfindable. -/
theorem find?_fst_filter_ne {α β : Type} [BEq α] (l : List (α × β)) (k : α) :
    (l.filter (fun e => !(e.1 == k))).find? (fun e => e.1 == k) = none := by
  rw [List.find?_eq_none]
  intro x hx
  rw [List.mem_filter] at hx
  simp only [Bool.not_eq_true'] at hx
  simp [hx.2]

/-- After `mdb_del`, the deleted key has no entry. -/
theorem mdb_get_after_del (s : TableState) (k : Bytes) :
    mdb_get (mdb_del s k).1 k = none := by
  rw [mdb_del_fst, mdb_get, find?_fst_filter_ne]
  rfl

/-- Deleting a key that has no entry is a no-op reporting `false`. -/
theorem mdb_del_absent (s : TableState) (k : Bytes) (h : mdb_get s k = none) :
    mdb_del s k = (s, false) := by
  rw [mdb_del, if_neg]
  intro hany
  rw [List.any_eq_true] at hany
  obtain ⟨e, he, hk⟩ := hany
  rw [mdb_get, Option.map_eq_none'] at h
  rw [List.find?_eq_none] at h
  exact absurd hk (h e he)

/-- The counting loop of `PolyDatabase::len` counts the remaining entries. -/
theorem lenLoop_eq (s : TableState) (i count : Nat) :
    PolyDatabase.lenLoop s i count = count + (s.length - (i + 1)) := by
  by_cases h : i + 1 < s.length
  · rw [PolyDatabase.lenLoop, dif_pos h, lenLoop_eq s (i + 1) (count + 1)]
    omega
  · rw [PolyDatabase.lenLoop, dif_neg h]
    omega
termination_by s.length - i

/-- `PolyDatabase::len` counts exactly the stored entries. -/
theorem polyLen_eq (s : TableState) : PolyDatabase.len s = s.length := by
  match s with
  | [] => rfl
  | e :: t =>
    rw [PolyDatabase.len]
    simp only [RoCursor.new, RoCursor.move_on_first]
    rw [lenLoop_eq]
    simp only [List.length_cons]
    omega

/-- Erasing one entry that satisfies `p` leaves the `¬ p` entries alone. -/
theorem filter_not_eraseP {α : Type} (p : α → Bool) (s : List α) :
    (s.eraseP p).filter (fun e => !p e) = s.filter (fun e => !p e) := by
  induction s with
  | nil => rfl
  | cons a t ih =>
    by_cases hp : p a = true
    · rw [List.eraseP_cons_of_pos hp, List.filter_cons_of_neg]
      simp [hp]
    · rw [List.eraseP_cons_of_neg hp, List.filter_cons_of_pos, List.filter_cons_of_pos]
      · rw [ih]
      · simp [hp]
      · simp [hp]

/-- Erasing one entry that satisfies `p` drops exactly one `p` entry. -/
theorem length_filter_eraseP {α : Type} (p : α → Bool) (s : List α)
    (h : ∃ e ∈ s, p e = true) :
    ((s.eraseP p).filter p).length + 1 = (s.filter p).length := by
  induction s with
  | nil => simp at h
  | cons a t ih =>
    by_cases hp : p a = true
    · rw [List.eraseP_cons_of_pos hp, List.filter_cons_of_pos hp]
      simp
    · rw [List.eraseP_cons_of_neg hp, List.filter_cons_of_neg (by simpa using hp),
        List.filter_cons_of_neg (by simpa using hp)]
      apply ih
      obtain ⟨e, he, hpe⟩ := h
      rcases List.mem_cons.mp he with rfl | het
      · exact absurd hpe hp
      · exact ⟨e, het, hpe⟩

/-- The `delete_range` loop removes exactly the in-bound entries and counts
them. -/
theorem deleteRangeLoop_eq (r : RangeB Bytes) (s : TableState) (count : Nat) :
    PolyDatabase.deleteRangeLoop r s count
      = (s.filter (fun e => !(r.contains e.1)),
         count + (s.filter (fun e => r.contains e.1)).length) := by
  cases hfind : s.find? (fun e => r.contains e.1) with
  | some e =>
    have hpe0 := List.find?_some hfind
    have hpe : (fun e : Entry => r.contains e.1) e = true := hpe0
    have hme : e ∈ s := List.mem_of_find?_eq_some hfind
    have hmem : ∃ x ∈ s, (fun e : Entry => r.contains e.1) x = true := ⟨e, hme, hpe⟩
    rw [PolyDatabase.deleteRangeLoop]
    split
    next e2 heq =>
      rw [deleteRangeLoop_eq r (s.eraseP (fun e => r.contains e.1)) (count + 1)]
      have h1 := filter_not_eraseP (fun e : Entry => r.contains e.1) s
      have h2 := length_filter_eraseP (fun e : Entry => r.contains e.1) s hmem
      rw [h1]
      have h3 : count + 1 + ((s.eraseP (fun e => r.contains e.1)).filter
          (fun e => r.contains e.1)).length
          = count + (s.filter (fun e => r.contains e.1)).length := by
        omega
      rw [h3]
    next heq =>
      rw [heq] at hfind
      exact absurd hfind (by simp)
  | none =>
    rw [PolyDatabase.deleteRangeLoop]
    split
    next e2 heq =>
      rw [heq] at hfind
      exact absurd hfind (by simp)
    next heq =>
      rw [List.find?_eq_none] at hfind
      have h1 : s.filter (fun e => !(r.contains e.1)) = s := by
        rw [List.filter_eq_self]
        intro e he
        simpa using hfind e he
      have h2 : s.filter (fun e => r.contains e.1) = [] := by
        rw [List.filter_eq_nil]
        intro e he
        exact hfind e he
      rw [h1, h2]
      simp
termination_by s.length
decreasing_by
  have h2 := @List.length_eraseP_add_one _ (fun e => r.contains e.1) s e hme hpe
  omega

/-- The seek-to-greater-or-equal-then-step-back composition used by
`get_lower_than`, computed in terms of the index of the first key `≥` the
target. -/
theorem seek_prev_eq (s : TableState) (kb : Bytes) :
    (((RoCursor.new s).move_on_key_greater_than_or_equal_to kb).1.move_on_prev).2
      = if s.findIdx (fun e => !byteLt e.1 kb) = 0 then none
        else s[s.findIdx (fun e => !byteLt e.1 kb) - 1]? := by
  cases hsi : s[s.findIdx (fun e => !byteLt e.1 kb)]? with
  | some e =>
    simp only [RoCursor.move_on_key_greater_than_or_equal_to, RoCursor.new, hsi]
    rw [RoCursor.move_on_prev]
    simp only
    by_cases h0 : s.findIdx (fun e => !byteLt e.1 kb) = 0
    · rw [if_pos h0, if_pos h0]
    · rw [if_neg h0, if_neg h0]
      cases hprev : s[s.findIdx (fun e => !byteLt e.1 kb) - 1]? with
      | some e2 => simp [hprev]
      | none => simp [hprev]
  | none =>
    simp only [RoCursor.move_on_key_greater_than_or_equal_to, RoCursor.new, hsi]
    rw [RoCursor.move_on_prev]
    simp only
    have hge : s.length ≤ s.findIdx (fun e => !byteLt e.1 kb) := by
      by_contra hlt
      push_neg at hlt
      rw [List.getElem?_eq_getElem hlt] at hsi
      exact absurd hsi (by simp)
    have hle := @List.findIdx_le_length _ (fun e => !byteLt e.1 kb) s
    have hieq : s.findIdx (fun e => !byteLt e.1 kb) = s.length :=
      Nat.le_antisymm hle hge
    cases hs : s with
    | nil => simp [hs]
    | cons x t =>
      have hne : s ≠ [] := by rw [hs]; simp
      rw [← hs]
      have hlast : s.getLast? = some (s.getLast hne) := List.getLast?_eq_getLast s hne
      rw [hlast]
      simp only
      rw [hieq, if_neg (by rw [hs]; simp)]
      rw [List.getLast?_eq_getElem? ] at hlast
      rw [← hlast]

/-- On a key-sorted table the entries whose key is below the target form
the prefix that ends where the first `≥` key starts. -/
theorem sorted_filter_lt_eq_take (kb : Bytes) (s : TableState) (hs : KeysSorted s) :
    s.filter (fun e => byteLt e.1 kb)
      = s.take (s.findIdx (fun e => !byteLt e.1 kb)) := by
  induction s with
  | nil => rfl
  | cons e t ih =>
    rw [KeysSorted, List.pairwise_cons] at hs
    obtain ⟨he, ht⟩ := hs
    by_cases hP : byteLt e.1 kb = true
    · rw [@List.filter_cons_of_pos _ (fun e => byteLt e.1 kb) e t hP, List.findIdx_cons]
      have : (!byteLt e.1 kb) = false := by simp [hP]
      rw [this]
      simp only [cond_false, List.take_succ_cons]
      rw [ih ht]
    · rw [@List.filter_cons_of_neg _ (fun e => byteLt e.1 kb) e t (by simpa using hP),
        List.findIdx_cons]
      have hnb : (!byteLt e.1 kb) = true := by simp [Bool.not_eq_true] at hP ⊢; exact hP
      rw [hnb]
      simp only [cond_true, List.take_zero]
      rw [List.filter_eq_nil]
      intro f hf
      simp only [Bool.not_eq_true]
      have hef : byteLt e.1 f.1 = true := he f hf
      cases hcase : byteLt f.1 kb
      · rfl
      · have : byteLt e.1 kb = true := byteLt_trans hef hcase
        exact absurd this hP

/-- `getLast?` of a prefix of length `i ≤ length` is the entry at `i - 1`. -/
theorem getLast?_take_eq {α : Type} (s : List α) (i : Nat) (hle : i ≤ s.length) :
    (s.take i).getLast? = if i = 0 then none else s[i - 1]? := by
  by_cases h0 : i = 0
  · subst h0
    simp
  · rw [if_neg h0]
    rw [List.getLast?_eq_getElem?]
    have hlen : (s.take i).length = i := by
      rw [List.length_take]
      omega
    rw [hlen]
    exact List.getElem?_take_of_lt (by omega)

/-- In a pairwise-related list, every element is the last one or relates
to it. -/
theorem pairwise_rel_getLast {α : Type} {R : α → α → Prop} :
    ∀ (l : List α), List.Pairwise R l → ∀ a, l.getLast? = some a →
      ∀ b ∈ l, b = a ∨ R b a := by
  intro l
  induction l with
  | nil => intro _ a ha; simp at ha
  | cons x t ih =>
    intro hp a ha b hb
    rw [List.pairwise_cons] at hp
    obtain ⟨hx, ht⟩ := hp
    cases t with
    | nil =>
      simp at ha hb
      subst ha hb
      exact Or.inl rfl
    | cons y t2 =>
      rw [List.getLast?_cons_cons] at ha
      rcases List.mem_cons.mp hb with rfl | hbt
      · right
        exact hx a (List.mem_of_mem_getLast? ha)
      · exact ih ht a ha b hbt

/-- `get_lower_than` on a sorted table returns (the decoding of) the last
entry whose key is strictly below the encoded target. -/
theorem get_lower_than_eq {κ δ : Type} (kc : Codec κ) (dc : Codec δ)
    (s : TableState) (k : κ) (kb : Bytes) (hs : KeysSorted s)
    (he : kc.encode k = some kb) :
    PolyDatabase.get_lower_than kc dc s k
      = match (s.filter (fun e => byteLt e.1 kb)).getLast? with
        | none => .ok none
        | some (key, data) =>
          match kc.decode key, dc.decode data with
          | some k2, some d2 => .ok (some (k2, d2))
          | _, _ => .error .decoding := by
  rw [PolyDatabase.get_lower_than, he]
  simp only
  have hsp := seek_prev_eq s kb
  rw [sorted_filter_lt_eq_take kb s hs,
    getLast?_take_eq s _ (@List.findIdx_le_length _ (fun e => !byteLt e.1 kb) s)]
  cases hmp : ((RoCursor.new s).move_on_key_greater_than_or_equal_to kb).1.move_on_prev with
  | mk c2 r =>
    rw [hmp] at hsp
    simp only at hsp
    rw [← hsp]
    cases r with
    | none => rfl
    | some e =>
      cases e with
      | mk key data => rfl

/-- Deleting every collected key of a table empties it. -/
theorem foldl_rocks_delete (ks : List Bytes) (s : TableState) :
    ks.foldl (fun st k => rocks_delete st k) s
      = s.filter (fun e => !(ks.any (fun k => e.1 == k))) := by
  induction ks generalizing s with
  | nil =>
    simp only [List.foldl_nil, List.any_nil, Bool.not_false]
    rw [List.filter_eq_self.mpr]
    intro e _
    rfl
  | cons k ks ih =>
    rw [List.foldl_cons, ih (rocks_delete s k), rocks_delete, List.filter_filter]
    apply List.filter_congr
    intro e _
    simp [Bool.not_or, Bool.and_comm]

/-- `RockTable::clear` of the `TransactionDB` wrapper removes every entry:
the collected key set is the full key set of the table. -/
theorem rockClear_eq_nil (s : TableState) : RockTable.clear s = [] := by
  rw [RockTable.clear, foldl_rocks_delete, List.filter_eq_nil]
  intro e he
  have hany : (s.map (·.1)).any (fun k => e.1 == k) = true := by
    rw [List.any_eq_true]
    exact ⟨e.1, List.mem_map_of_mem _ he, by simp⟩
  simp [hany]

/-- Taking the handle out of the entry stored at one path rewrites exactly
that lookup. -/
theorem lookup_map_update (r : OpenedEnv) (p : EnvPath) :
    OpenedEnv.lookup
        (r.map (fun e => if e.1 == p then (e.1, { e.2 with env := none }) else e)) p
      = (OpenedEnv.lookup r p).map (fun en => { en with env := none }) := by
  induction r with
  | nil => rfl
  | cons e t ih =>
    rw [List.map_cons]
    by_cases hep : (e.1 == p) = true
    · rw [if_pos hep]
      simp only [OpenedEnv.lookup, List.find?_cons, hep]
      rfl
    · rw [if_neg hep]
      simp only [OpenedEnv.lookup, List.find?_cons, hep] at ih ⊢
      exact ih

/-- A path removed from the registry can no longer be looked up. -/
theorem lookup_filter_ne (r : OpenedEnv) (p : EnvPath) :
    OpenedEnv.lookup (r.filter (fun e => !(e.1 == p))) p = none := by
  rw [OpenedEnv.lookup, find?_fst_filter_ne]
  rfl

/-! ## The claims -/

/-- C1: on a path whose canonicalized form is already in the process-wide
registry, `EnvOpenOptions::open` returns a new handle to the same
underlying native environment when the recorded options equal the
requested ones and the entry is not closing; fails with `BadOpenOptions`
when the recorded options differ; and fails with `DatabaseClosing` when
the (matching) entry is marked closing, i.e. its handle is absent. -/
theorem claim_C1 (reg : OpenedEnv) (path : EnvPath) (opts : EnvOpenOptions)
    (entry : EnvEntry) (fresh : EnvId)
    (hlook : OpenedEnv.lookup reg path = some entry) :
    (∀ e, entry.options = opts → entry.env = some e →
      EnvOpenOptions.open opts reg path fresh = .ok (reg, e))
    ∧ (entry.options ≠ opts →
      EnvOpenOptions.open opts reg path fresh = .error .badOpenOptions)
    ∧ (entry.options = opts → entry.env = none →
      EnvOpenOptions.open opts reg path fresh = .error .databaseClosing) := by
  refine ⟨?_, ?_, ?_⟩
  · intro e hopt henv
    rw [EnvOpenOptions.open, hlook]
    simp only [hopt, ne_eq, not_true_eq_false, if_false, henv]
  · intro hopt
    rw [EnvOpenOptions.open, hlook]
    simp only
    rw [if_pos hopt]
  · intro hopt henv
    rw [EnvOpenOptions.open, hlook]
    simp only [hopt, ne_eq, not_true_eq_false, if_false, henv]

theorem claim_C1_witness :
    EnvOpenOptions.open ⟨⟨none, none⟩, none, none, 0⟩
        [("p", ⟨some 7, false, ⟨⟨none, none⟩, none, none, 0⟩⟩)] "p" 9
      = .ok ([("p", ⟨some 7, false, ⟨⟨none, none⟩, none, none, 0⟩⟩)], 7)
    ∧ EnvOpenOptions.open ⟨⟨none, none⟩, none, none, 1⟩
        [("p", ⟨some 7, false, ⟨⟨none, none⟩, none, none, 0⟩⟩)] "p" 9
      = .error .badOpenOptions
    ∧ EnvOpenOptions.open ⟨⟨none, none⟩, none, none, 0⟩
        [("p", ⟨none, false, ⟨⟨none, none⟩, none, none, 0⟩⟩)] "p" 9
      = .error .databaseClosing := by
  refine ⟨?_, ?_, ?_⟩
  · exact (claim_C1 [("p", ⟨some 7, false, ⟨⟨none, none⟩, none, none, 0⟩⟩)] "p"
      ⟨⟨none, none⟩, none, none, 0⟩ ⟨some 7, false, ⟨⟨none, none⟩, none, none, 0⟩⟩ 9
      (by rfl)).1 7 rfl rfl
  · exact (claim_C1 [("p", ⟨some 7, false, ⟨⟨none, none⟩, none, none, 0⟩⟩)] "p"
      ⟨⟨none, none⟩, none, none, 1⟩ ⟨some 7, false, ⟨⟨none, none⟩, none, none, 0⟩⟩ 9
      (by rfl)).2.1 (by decide)
  · exact (claim_C1 [("p", ⟨none, false, ⟨⟨none, none⟩, none, none, 0⟩⟩)] "p"
      ⟨⟨none, none⟩, none, none, 0⟩ ⟨none, false, ⟨⟨none, none⟩, none, none, 0⟩⟩ 9
      (by rfl)).2.2 rfl rfl

/-- C2: `prepare_for_closing` takes the handle out of the registry entry
(leaving the entry with the close event), so every subsequent open of the
same canonical path fails; the native close is deferred to the drop of the
last reference (`Drop for EnvInner`), which removes the registry entry and
signals the close event — and can happen only once, a second drop of the
same path being the fatal-panic outcome, as is `prepare_for_closing` on a
path with no registry entry. -/
theorem claim_C2 (reg : OpenedEnv) (path : EnvPath) :
    (∀ entry, OpenedEnv.lookup reg path = some entry →
      ∃ reg', Env.prepare_for_closing reg path = some (reg', entry.signal_event)
        ∧ OpenedEnv.lookup reg' path = some { entry with env := none }
        ∧ (∀ opts fresh, ∃ err, EnvOpenOptions.open opts reg' path fresh = .error err)
        ∧ EnvInner.drop reg' path
            = some (reg'.filter (fun e => !(e.1 == path)), true)
        ∧ OpenedEnv.lookup (reg'.filter (fun e => !(e.1 == path))) path = none
        ∧ EnvInner.drop (reg'.filter (fun e => !(e.1 == path))) path = none)
    ∧ (OpenedEnv.lookup reg path = none →
      Env.prepare_for_closing reg path = none) := by
  constructor
  · intro entry hlook
    refine ⟨reg.map (fun e => if e.1 == path then (e.1, { e.2 with env := none }) else e),
      ?_, ?_, ?_, ?_, ?_, ?_⟩
    · rw [Env.prepare_for_closing, hlook]
    · rw [lookup_map_update, hlook]
      rfl
    · intro opts fresh
      by_cases hopt : entry.options ≠ opts
      · refine ⟨.badOpenOptions, ?_⟩
        rw [EnvOpenOptions.open, lookup_map_update, hlook]
        simp [hopt]
      · refine ⟨.databaseClosing, ?_⟩
        rw [EnvOpenOptions.open, lookup_map_update, hlook]
        simp [not_ne_iff.mp hopt]
    · rw [EnvInner.drop, lookup_map_update, hlook]
      rfl
    · exact lookup_filter_ne _ _
    · rw [EnvInner.drop, lookup_filter_ne]
  · intro hlook
    rw [Env.prepare_for_closing, hlook]

theorem claim_C2_witness :
    (∃ reg', Env.prepare_for_closing
        [("p", ⟨some 7, false, ⟨⟨none, none⟩, none, none, 0⟩⟩)] "p"
          = some (reg', false)
      ∧ OpenedEnv.lookup reg' "p"
          = some ⟨none, false, ⟨⟨none, none⟩, none, none, 0⟩⟩
      ∧ (∀ opts fresh, ∃ err, EnvOpenOptions.open opts reg' "p" fresh = .error err)
      ∧ EnvInner.drop reg' "p"
          = some (reg'.filter (fun e => !(e.1 == "p")), true)
      ∧ OpenedEnv.lookup (reg'.filter (fun e => !(e.1 == "p"))) "p" = none
      ∧ EnvInner.drop (reg'.filter (fun e => !(e.1 == "p"))) "p" = none)
    ∧ Env.prepare_for_closing [] "p" = none := by
  constructor
  · exact (claim_C2 [("p", ⟨some 7, false, ⟨⟨none, none⟩, none, none, 0⟩⟩)] "p").1
      ⟨some 7, false, ⟨⟨none, none⟩, none, none, 0⟩⟩ (by rfl)
  · exact (claim_C2 [] "p").2 (by rfl)

/-- C3: within one environment, the first open of a raw table identifier
records the presented `(key-type-id, value-type-id)` pair (or its absence
for the polymorphic open); every later open presenting a different pair
fails with `InvalidDatabaseTyping`, and every later open presenting the
recorded pair succeeds with the same raw identifier and an unchanged
record. -/
theorem claim_C3 (m : DbiOpenMap) (dbi : Dbi) (t1 t2 : Option (TypeId × TypeId))
    (hfresh : (m.find? (fun e => e.1 == dbi)).map (·.2) = none) :
    ∃ m', Env.raw_init_database m dbi t1 = .ok (m', dbi)
      ∧ (m'.find? (fun e => e.1 == dbi)).map (·.2) = some t1
      ∧ (t2 ≠ t1 → Env.raw_init_database m' dbi t2 = .error .invalidDatabaseTyping)
      ∧ Env.raw_init_database m' dbi t1 = .ok (m', dbi) := by
  refine ⟨(dbi, t1) :: m, ?_, ?_, ?_, ?_⟩
  · rw [Env.raw_init_database, hfresh]
  · simp [List.find?_cons]
  · intro hne
    rw [Env.raw_init_database]
    simp only [List.find?_cons, beq_self_eq_true, Option.map_some']
    rw [if_neg]
    exact fun h => hne h.symm
  · rw [Env.raw_init_database]
    simp [List.find?_cons]

theorem claim_C3_witness :
    ∃ m', Env.raw_init_database [] 3 (some (11, 12)) = .ok (m', 3)
      ∧ (m'.find? (fun e => e.1 == 3)).map (·.2) = some (some (11, 12))
      ∧ (some (11, 13) ≠ some (11, 12) →
          Env.raw_init_database m' 3 (some (11, 13)) = .error .invalidDatabaseTyping)
      ∧ Env.raw_init_database m' 3 (some (11, 12)) = .ok (m', 3) :=
  claim_C3 [] 3 (some (11, 12)) (some (11, 13)) (by rfl)

/-- C4: `delete_range` over a byte-encoded bound removes exactly the
stored entries whose key satisfies the bound predicate
(byte-lexicographically), returns how many entries it removed, and leaves
the out-of-range entries untouched and in place. -/
theorem claim_C4 {κ : Type} (kc : Codec κ) (s : TableState) (range : RangeB κ)
    (rb : RangeB Bytes) (henc : range.encodeWith kc = .ok rb) :
    PolyDatabase.delete_range kc s range
      = .ok (s.filter (fun e => !(rb.contains e.1)),
             (s.filter (fun e => rb.contains e.1)).length) := by
  rw [PolyDatabase.delete_range, henc]
  show Except.ok (PolyDatabase.deleteRangeLoop rb s 0) = _
  rw [deleteRangeLoop_eq, Nat.zero_add]

theorem claim_C4_witness :
    PolyDatabase.delete_range ByteSlice
        [([1], [10]), ([2], [20]), ([3], [30]), ([4], [40])]
        ⟨.included [2], .excluded [4]⟩
      = .ok ([([1], [10]), ([4], [40])], 2) := by
  have h := claim_C4 ByteSlice [([1], [10]), ([2], [20]), ([3], [30]), ([4], [40])]
    ⟨.included [2], .excluded [4]⟩ ⟨.included [2], .excluded [4]⟩ (by rfl)
  rw [h]
  rfl

/-- C5 counterexample: the transactional wrapper's `clear` (`store/rck.rs`)
deletes a stored key that is NOT lexicographically below the 512-byte
`0xFF` sentinel (here: the sentinel itself), where the claim requires such
a key to still be present after `clear`. -/
theorem claim_C5_counterexample :
    byteLt ffSentinel ffSentinel = false
    ∧ RockTable.clear [(ffSentinel, [])] = [] :=
  ⟨byteLt_irrefl _, rockClear_eq_nil _⟩

/-- C5 (amended): the raw (non-transactional) wrapper's `clear`
(`store/rck/raw.rs`) deletes exactly the stored keys lexicographically
below the 512-byte `0xFF` sentinel — a key at or beyond the sentinel
survives and nothing new appears; the transactional wrapper's `clear`
(`store/rck.rs`) instead deletes every entry of the table through an
unbounded range. -/
theorem claim_C5 (s : TableState) (e : Entry) (hmem : e ∈ s) :
    (byteLt e.1 ffSentinel = true → e ∉ Raw.RockTable.clear s)
    ∧ (byteLt e.1 ffSentinel = false → e ∈ Raw.RockTable.clear s)
    ∧ (∀ f, f ∈ Raw.RockTable.clear s → f ∈ s)
    ∧ RockTable.clear s = [] := by
  have hpred : ∀ f : Entry,
      (!(byteLe [] f.1 && byteLt f.1 ffSentinel)) = !(byteLt f.1 ffSentinel) := by
    intro f
    rw [byteLe, byteLt_nil_right]
    rfl
  refine ⟨?_, ?_, ?_, rockClear_eq_nil s⟩
  · intro hlt hin
    rw [Raw.RockTable.clear, rocks_delete_range, List.mem_filter, hpred] at hin
    rw [hlt] at hin
    simp at hin
  · intro hge
    rw [Raw.RockTable.clear, rocks_delete_range, List.mem_filter, hpred, hge]
    exact ⟨hmem, rfl⟩
  · intro f hf
    rw [Raw.RockTable.clear, rocks_delete_range, List.mem_filter] at hf
    exact hf.1

theorem claim_C5_witness :
    ([0], ([] : Bytes)) ∉ Raw.RockTable.clear [([0], []), (ffSentinel, [])]
    ∧ (ffSentinel, ([] : Bytes)) ∈ Raw.RockTable.clear [([0], []), (ffSentinel, [])]
    ∧ RockTable.clear [([0], []), (ffSentinel, [])] = [] := by
  refine ⟨?_, ?_, ?_⟩
  · exact (claim_C5 [([0], []), (ffSentinel, [])] ([0], []) (by simp)).1 (by decide)
  · exact (claim_C5 [([0], []), (ffSentinel, [])] (ffSentinel, []) (by simp)).2.1
      (byteLt_irrefl _)
  · exact (claim_C5 [([0], []), (ffSentinel, [])] ([0], []) (by simp)).2.2.2

/-- C6 counterexample: on the LSM engine, `RockTable::get` with a key
codec whose `bytes_encode` returns `None` PANICS (the `.unwrap()` in
`store/rck.rs`, modelled as the `none` outcome) instead of returning an
encoding-error value as the claim requires. -/
theorem claim_C6_counterexample :
    RockTable.get (Codec.mk (fun _ : Nat => none) (fun _ => none))
        (Codec.mk (fun _ : Nat => none) (fun _ => none))
        (RockDb.mk [] []) "t" 0 = none := rfl

/-- C6 (amended): on the B-tree engine (`PolyDatabase`), a codec returning
`None` surfaces as the distinct `Error::Encoding` / `Error::Decoding`
values and never panics; on the LSM engine (`store/rck.rs`), `get` and
`put` unwrap the encode result and the range iterator unwraps both decode
results — a codec returning `None` there is a panic — and a fetched value
that fails to decode is reported by `get` as the absent result `Ok(None)`
rather than a decoding error. -/
theorem claim_C6 {κ δ : Type} (kc : Codec κ) (dc : Codec δ) :
    (∀ s k, kc.encode k = none → PolyDatabase.get kc dc s k = .error .encoding)
    ∧ (∀ s k kb data, kc.encode k = some kb → mdb_get s kb = some data →
        dc.decode data = none → PolyDatabase.get kc dc s k = .error .decoding)
    ∧ (∀ s k v, kc.encode k = none → PolyDatabase.put kc dc s k v = .error .encoding)
    ∧ (∀ s k v kb, kc.encode k = some kb → dc.encode v = none →
        PolyDatabase.put kc dc s k v = .error .encoding)
    ∧ (∀ db cf k, kc.encode k = none → RockTable.get kc dc db cf k = none)
    ∧ (∀ (db : RockDb) cf k kb data, kc.encode k = some kb →
        mdb_get (db.cf cf) kb = some data → dc.decode data = none →
        RockTable.get kc dc db cf k = some (.ok none))
    ∧ (∀ s k v, kc.encode k = none → RockTable.put kc dc s k v = none)
    ∧ (∀ e, kc.decode e.1 = none → RockTable.iterDecode kc dc e = none) := by
  refine ⟨?_, ?_, ?_, ?_, ?_, ?_, ?_, ?_⟩
  · intro s k he
    rw [PolyDatabase.get, he]
  · intro s k kb data he hg hd
    rw [PolyDatabase.get, he]
    simp only
    rw [hg]
    simp only
    rw [hd]
  · intro s k v he
    rw [PolyDatabase.put, he]
  · intro s k v kb he hd
    rw [PolyDatabase.put, he]
    simp only
    rw [hd]
  · intro db cf k he
    rw [RockTable.get, he]
  · intro db cf k kb data he hg hd
    rw [RockTable.get, he]
    simp only
    rw [hg]
    simp only [Option.some_bind, hd]
  · intro s k v he
    rw [RockTable.put, he]
  · intro e hd
    rw [RockTable.iterDecode, hd]

theorem claim_C6_witness :
    PolyDatabase.get (Codec.mk (fun _ : Nat => none) (fun _ => none))
        (Codec.mk (fun _ : Nat => none) (fun _ => none)) [] 0 = .error .encoding
    ∧ PolyDatabase.get ByteSlice (Codec.mk (fun _ : Nat => some []) (fun _ => none))
        [([1], [5])] [1] = .error .decoding
    ∧ PolyDatabase.put (Codec.mk (fun _ : Nat => none) (fun _ => none))
        (Codec.mk (fun _ : Nat => none) (fun _ => none)) [] 0 0 = .error .encoding
    ∧ PolyDatabase.put ByteSlice (Codec.mk (fun _ : Nat => none) (fun _ => none))
        [] [1] 0 = .error .encoding
    ∧ RockTable.get (Codec.mk (fun _ : Nat => none) (fun _ => none))
        (Codec.mk (fun _ : Nat => none) (fun _ => none)) (RockDb.mk [] []) "t" 0 = none
    ∧ RockTable.get ByteSlice (Codec.mk (fun _ : Nat => some []) (fun _ => none))
        (RockDb.mk [] [("t", [([1], [5])])]) "t" [1] = some (.ok none)
    ∧ RockTable.put (Codec.mk (fun _ : Nat => none) (fun _ => none))
        (Codec.mk (fun _ : Nat => none) (fun _ => none)) [] 0 0 = none
    ∧ RockTable.iterDecode (Codec.mk (fun _ : Nat => none) (fun _ => none))
        (Codec.mk (fun _ : Nat => none) (fun _ => none)) ([1], [2]) = none := by
  refine ⟨?_, ?_, ?_, ?_, ?_, ?_, ?_, ?_⟩
  · exact (claim_C6 _ _).1 [] 0 rfl
  · exact (claim_C6 _ _).2.1 [([1], [5])] [1] [1] [5] rfl rfl rfl
  · exact (claim_C6 _ _).2.2.1 [] 0 0 rfl
  · exact (claim_C6 _ _).2.2.2.1 [] [1] 0 [1] rfl rfl
  · exact (claim_C6 _ _).2.2.2.2.1 (RockDb.mk [] []) "t" 0 rfl
  · exact (claim_C6 _ _).2.2.2.2.2.1 (RockDb.mk [] [("t", [([1], [5])])]) "t" [1] [1] [5]
      rfl rfl rfl
  · exact (claim_C6 _ _).2.2.2.2.2.2.1 [] 0 0 rfl
  · exact (claim_C6 _ _).2.2.2.2.2.2.2 ([1], [2]) rfl

/-- C7: `PolyDatabase::len` does return exactly the number of stored
entries of its table, but the LSM engine's `RockTable::len` counts the
store's default column family instead of the table's own column family:
on a store whose default column family is empty and whose table `t` holds
four entries (keys 13, 27, 42, 521 as 4-byte big-endian), it returns 0
instead of 4. -/
theorem claim_C7 :
    (∀ s : TableState, PolyDatabase.len s = s.length)
    ∧ RockTable.len
        (RockDb.mk [] [("t", [([0, 0, 0, 13], []), ([0, 0, 0, 27], []),
          ([0, 0, 0, 42], []), ([0, 0, 2, 9], [])])]) "t" = 0
    ∧ ((RockDb.mk [] [("t", [([0, 0, 0, 13], []), ([0, 0, 0, 27], []),
          ([0, 0, 0, 42], []), ([0, 0, 2, 9], [])])]).cf "t").length = 4 :=
  ⟨polyLen_eq, rfl, rfl⟩

/-- C8: on a sorted table, `get_lower_than` — seeking the cursor to the
greater-or-equal position and stepping one entry backward — returns the
entry holding the greatest stored key strictly below the encoding of the
query key, decoded through the supplied codecs, and `Ok(None)` when no
stored key is strictly below it. -/
theorem claim_C8 {κ δ : Type} (kc : Codec κ) (dc : Codec δ) (s : TableState)
    (k : κ) (kb : Bytes) (hs : KeysSorted s) (he : kc.encode k = some kb) :
    ((∀ e ∈ s, byteLt e.1 kb = false) →
      PolyDatabase.get_lower_than kc dc s k = .ok none)
    ∧ (∀ key data, (s.filter (fun e => byteLt e.1 kb)).getLast? = some (key, data) →
      (key, data) ∈ s ∧ byteLt key kb = true
        ∧ (∀ f ∈ s, byteLt f.1 kb = true → byteLe f.1 key = true)
        ∧ PolyDatabase.get_lower_than kc dc s k
            = match kc.decode key, dc.decode data with
              | some k2, some d2 => .ok (some (k2, d2))
              | _, _ => .error .decoding) := by
  constructor
  · intro hnone
    rw [get_lower_than_eq kc dc s k kb hs he]
    have hfil : s.filter (fun e => byteLt e.1 kb) = [] := by
      rw [List.filter_eq_nil]
      intro e hein
      rw [hnone e hein]
      simp
    rw [hfil]
    rfl
  · intro key data hlast
    have hmemf : (key, data) ∈ s.filter (fun e => byteLt e.1 kb) :=
      List.mem_of_mem_getLast? hlast
    have hmem : (key, data) ∈ s := (List.mem_filter.mp hmemf).1
    have hkey : byteLt key kb = true := by
      have := (List.mem_filter.mp hmemf).2
      simpa using this
    have hpfil : List.Pairwise (fun e f : Entry => byteLt e.1 f.1 = true)
        (s.filter (fun e => byteLt e.1 kb)) :=
      List.Pairwise.sublist (List.filter_sublist s) hs
    refine ⟨hmem, hkey, ?_, ?_⟩
    · intro f hf hflt
      have hff : f ∈ s.filter (fun e => byteLt e.1 kb) :=
        List.mem_filter.mpr ⟨hf, by simpa using hflt⟩
      rcases pairwise_rel_getLast _ hpfil (key, data) hlast f hff with rfl | hrel
      · rw [byteLe, byteLt_irrefl]
        rfl
      · rw [byteLe, byteLt_asymm hrel]
        rfl
    · rw [get_lower_than_eq kc dc s k kb hs he, hlast]

theorem claim_C8_witness :
    ([2], ([20] : Bytes)) ∈ [([1], [10]), ([2], [20]), ([3], [30])]
    ∧ byteLt [2] [3] = true
    ∧ PolyDatabase.get_lower_than ByteSlice ByteSlice
        [([1], [10]), ([2], [20]), ([3], [30])] [3] = .ok (some ([2], [20])) := by
  have h := (claim_C8 ByteSlice ByteSlice [([1], [10]), ([2], [20]), ([3], [30])]
    [3] [3] (by decide) rfl).2 [2] [20] (by rfl)
  exact ⟨h.1, h.2.1, h.2.2.2⟩

/-- C9: within a write transaction, `get` after `delete` of the same key
returns the absent result `Ok(None)`; `delete` of an absent key is the
recoverable no-op `Ok(false)`, never an error; hence repeated `delete` of
one key is idempotent — the second call leaves the state unchanged and
reports `false`. -/
theorem claim_C9 {κ δ : Type} (kc : Codec κ) (dc : Codec δ) (s : TableState)
    (k : κ) (kb : Bytes) (he : kc.encode k = some kb) :
    (∀ s2 b, PolyDatabase.delete kc s k = .ok (s2, b) →
      PolyDatabase.get kc dc s2 k = .ok none
      ∧ PolyDatabase.delete kc s2 k = .ok (s2, false))
    ∧ (mdb_get s kb = none → PolyDatabase.delete kc s k = .ok (s, false)) := by
  constructor
  · intro s2 b hdel
    rw [PolyDatabase.delete, he] at hdel
    simp only [Except.ok.injEq] at hdel
    have hs2 : s2 = (mdb_del s kb).1 := by
      rw [hdel]
    have hget : mdb_get s2 kb = none := by
      rw [hs2]
      exact mdb_get_after_del s kb
    constructor
    · rw [PolyDatabase.get, he]
      simp only
      rw [hget]
    · rw [PolyDatabase.delete, he]
      simp only
      rw [mdb_del_absent s2 kb hget]
  · intro habs
    rw [PolyDatabase.delete, he]
    simp only
    rw [mdb_del_absent s kb habs]

theorem claim_C9_witness :
    PolyDatabase.delete ByteSlice [([1], [10]), ([2], [20])] [1]
      = .ok ([([2], [20])], true)
    ∧ PolyDatabase.get ByteSlice ByteSlice [([2], [20])] ([1] : Bytes) = .ok none
    ∧ PolyDatabase.delete ByteSlice [([2], [20])] [1] = .ok ([([2], [20])], false)
    ∧ PolyDatabase.delete ByteSlice [([2], [20])] [5] = .ok ([([2], [20])], false) := by
  have h := (claim_C9 ByteSlice ByteSlice [([1], [10]), ([2], [20])] [1] [1] rfl).1
    [([2], [20])] true (by rfl)
  have h2 := (claim_C9 ByteSlice ByteSlice [([2], [20])] [5] [5] rfl).2 (by rfl)
  exact ⟨by rfl, h.1, h.2, h2⟩

/-- C10: the `Str` codec round-trips — decoding the encoding of any string
(sequence of Unicode scalar values) returns that string — and decoding any
byte sequence that is not the UTF-8 encoding of a string returns `None`
(a decoding error, not a panic). -/
theorem claim_C10 :
    (∀ s : List Nat, (∀ c ∈ s, ScalarValue c) →
      ∃ bs, Str.bytes_encode s = some bs ∧ Str.bytes_decode bs = some s)
    ∧ (∀ bs : Bytes, (¬ ∃ s, (∀ c ∈ s, ScalarValue c) ∧ utf8Encode s = bs) →
      Str.bytes_decode bs = none) := by
  constructor
  · intro s hs
    exact ⟨utf8Encode s, rfl, utf8Decode_encode s hs⟩
  · intro bs hnex
    cases hdec : utf8Decode bs with
    | none => rw [Str.bytes_decode, hdec]
    | some s =>
      obtain ⟨hsv, henc⟩ := utf8Decode_sound bs s hdec
      exact absurd ⟨s, hsv, henc⟩ hnex

theorem claim_C10_witness :
    (∃ bs, Str.bytes_encode [97, 233, 8364, 128512] = some bs
      ∧ Str.bytes_decode bs = some [97, 233, 8364, 128512])
    ∧ Str.bytes_decode [128] = none := by
  constructor
  · exact claim_C10.1 [97, 233, 8364, 128512] (by decide)
  · refine claim_C10.2 [128] ?_
    rintro ⟨s, hsv, henc⟩
    obtain ⟨bs, hbs, hdec⟩ := claim_C10.1 s hsv
    rw [Str.bytes_encode] at hbs
    obtain rfl : utf8Encode s = bs := by
      simpa using hbs
    rw [henc] at hdec
    have hnone : Str.bytes_decode [128] = none := by
      rw [Str.bytes_decode, utf8Decode]
      rfl
    rw [hnone] at hdec
    exact absurd hdec (by simp)

end Heed
